import Mathlib

/-!
Verification development for the Startly module-composition and assembly
engine.  Pure functions from the repository sources are embedded as Lean
definitions; components of the engine whose implementation files are not part
of the source snapshot (DependencyResolver, ManifestMerger, CodeInjector,
TemplateRenderer, ProjectAssembler) are modelled from the specification, as
indicated in each doc comment.
-/

namespace Startly

set_option maxRecDepth 8192

/-- Generic first-match lookup in an association list. -/
def assocFind {α β : Type} [DecidableEq α] : List (α × β) → α → Option β
  | [], _ => none
  | kv :: rest, k => if kv.1 = k then some kv.2 else assocFind rest k

/-- Uppercase-to-lowercase table covering the ASCII letters, mirroring the
effect of JavaScript String.prototype.toLowerCase on the ASCII range (the only
range relevant to the content-type keys and provider names of
files.service.ts). -/
def lowPairs : List (Char × Char) :=
  [('A', 'a'), ('B', 'b'), ('C', 'c'), ('D', 'd'), ('E', 'e'), ('F', 'f'),
   ('G', 'g'), ('H', 'h'), ('I', 'i'), ('J', 'j'), ('K', 'k'), ('L', 'l'),
   ('M', 'm'), ('N', 'n'), ('O', 'o'), ('P', 'p'), ('Q', 'q'), ('R', 'r'),
   ('S', 's'), ('T', 't'), ('U', 'u'), ('V', 'v'), ('W', 'w'), ('X', 'x'),
   ('Y', 'y'), ('Z', 'z')]

/-- Lowercase a single character (ASCII). -/
def lowChar (c : Char) : Char := (assocFind lowPairs c).getD c

/-- Lowercase a string character-wise, modelling `.toLowerCase()`. -/
def lowerStr (s : String) : String := ⟨s.data.map lowChar⟩

/-- Boolean membership of a character in a character list. -/
def hasChar (x : Char) : List Char → Bool
  | [] => false
  | c :: rest => decide (c = x) || hasChar x rest

/-- Tests whether the first list starts the second one. -/
def leadsWith : List Char → List Char → Bool
  | [], _ => true
  | _ :: _, [] => false
  | p :: ps, c :: cs => decide (p = c) && leadsWith ps cs

/-- Tests whether `pat` occurs contiguously inside a list. -/
def listHasSub (pat : List Char) : List Char → Bool
  | [] => pat.isEmpty
  | c :: rest => leadsWith pat (c :: rest) || listHasSub pat rest

/-- Substring test modelling JavaScript String.prototype.includes. -/
def strIncludes (s pat : String) : Bool := listHasSub pat.data s.data

/-- Drops trailing path separators, as Node's path.extname does. -/
def stripTrailing (s : List Char) : List Char :=
  (s.reverse.dropWhile (fun c => decide (c = '/'))).reverse

/-- Keeps the part of a path after its last separator. -/
def afterSlash : List Char → List Char
  | [] => []
  | c :: rest =>
    if hasChar '/' rest then afterSlash rest
    else if c = '/' then rest else c :: rest

/-- Suffix starting at the last dot of the list (empty if no dot). -/
def lastDotSuffix : List Char → List Char
  | [] => []
  | c :: rest =>
    if hasChar '.' rest then lastDotSuffix rest
    else if c = '.' then c :: rest else []

/-- Extension of a basename: the suffix from the last dot, except that a dot
in leading position yields no extension and the special basename `..` has no
extension, matching Node's path.extname. -/
def extnameOfBase (b : List Char) : List Char :=
  if b = ['.', '.'] then []
  else
    match b with
    | [] => []
    | _ :: rest => if hasChar '.' rest then lastDotSuffix rest else []

/-- Embedding of Node's path.extname restricted to posix paths, as used by
FilesService.getContentType and FilesService.uploadFile. -/
def extname (s : String) : String :=
  ⟨extnameOfBase (afterSlash (stripTrailing s.data))⟩

/-- Content-type table of FilesService.getContentType, in source order. -/
def contentTypes : List (String × String) :=
  [(".jpg", "image/jpeg"),
   (".jpeg", "image/jpeg"),
   (".png", "image/png"),
   (".gif", "image/gif"),
   (".webp", "image/webp"),
   (".svg", "image/svg+xml"),
   (".pdf", "application/pdf"),
   (".doc", "application/msword"),
   (".docx", "application/vnd.openxmlformats-officedocument.wordprocessingml.document"),
   (".xls", "application/vnd.ms-excel"),
   (".xlsx", "application/vnd.openxmlformats-officedocument.spreadsheetml.sheet"),
   (".ppt", "application/vnd.ms-powerpoint"),
   (".pptx", "application/vnd.openxmlformats-officedocument.presentationml.presentation"),
   (".txt", "text/plain"),
   (".csv", "text/csv"),
   (".json", "application/json"),
   (".xml", "application/xml"),
   (".zip", "application/zip"),
   (".mp4", "video/mp4"),
   (".avi", "video/x-msvideo"),
   (".mov", "video/quicktime"),
   (".mp3", "audio/mpeg"),
   (".wav", "audio/wav")]

/-- Embedding of FilesService.getContentType: look up the lowercased
extension and fall back to application/octet-stream. -/
def getContentType (filename : String) : String :=
  match assocFind contentTypes (lowerStr (extname filename)) with
  | some m => m
  | none => "application/octet-stream"

/-- JavaScript truthiness for an optional configuration string: undefined and
the empty string are falsy. -/
def jsTruthy : Option String → Bool
  | none => false
  | some s => decide (s ≠ "")

/-- Embedding of FilesService.detectProvider.  The first argument is the
configured STORAGE_PROVIDER value, the second the configured
STORAGE_ENDPOINT value; `none` models an absent configuration entry. -/
def detectProvider (explicitProvider endpoint : Option String) : String :=
  if jsTruthy explicitProvider then explicitProvider.getD ""
  else if !(jsTruthy endpoint) then "aws-s3"
  else
    let e := endpoint.getD ""
    if strIncludes e "digitaloceanspaces.com" then "digitalocean-spaces"
    else if strIncludes e "minio" || strIncludes e "localhost"
            || strIncludes e "127.0.0.1" then "minio"
    else "s3-compatible"

/-! Lemmas about lowercasing and extensions, used for claim C10. -/

theorem assocFind_mem {α β : Type} [DecidableEq α] {l : List (α × β)} {k : α}
    {v : β} (h : assocFind l k = some v) : (k, v) ∈ l := by
  induction l with
  | nil => simp [assocFind] at h
  | cons kv rest ih =>
    rw [assocFind] at h
    split at h
    · rename_i hk
      injection h with hv
      simp [← hk, ← hv]
    · exact List.mem_cons_of_mem _ (ih h)

theorem lowChar_eq_iff {x : Char}
    (hvals : ∀ p ∈ lowPairs, p.2 ≠ x) (hfix : assocFind lowPairs x = none) :
    ∀ c, lowChar c = x ↔ c = x := by
  intro c
  constructor
  · intro h
    unfold lowChar at h
    cases hf : assocFind lowPairs c with
    | none => rw [hf] at h; simpa using h
    | some v =>
      rw [hf] at h
      simp only [Option.getD_some] at h
      exact absurd h (hvals _ (assocFind_mem hf))
  · intro h
    subst h
    unfold lowChar
    rw [hfix]
    rfl

theorem lowChar_dot_iff : ∀ c, lowChar c = '.' ↔ c = '.' :=
  lowChar_eq_iff (by decide) (by decide)

theorem lowChar_slash_iff : ∀ c, lowChar c = '/' ↔ c = '/' :=
  lowChar_eq_iff (by decide) (by decide)

theorem hasChar_map_lowChar {x : Char} (hx : ∀ c, lowChar c = x ↔ c = x) :
    ∀ s : List Char, hasChar x (s.map lowChar) = hasChar x s := by
  intro s
  induction s with
  | nil => rfl
  | cons c rest ih =>
    simp only [List.map_cons, hasChar, ih]
    congr 1
    exact decide_eq_decide.mpr (hx c)

theorem dropWhileSlash_map (s : List Char) :
    (s.map lowChar).dropWhile (fun c => decide (c = '/'))
      = (s.dropWhile (fun c => decide (c = '/'))).map lowChar := by
  induction s with
  | nil => rfl
  | cons c rest ih =>
    by_cases hc : c = '/'
    · subst hc
      have h1 : lowChar '/' = '/' := by decide
      simp only [List.map_cons, h1, List.dropWhile_cons, decide_eq_true_eq]
      simp [ih]
    · have h2 : lowChar c ≠ '/' := fun h => hc ((lowChar_slash_iff c).mp h)
      simp [List.dropWhile_cons, hc, h2]

theorem stripTrailing_map (s : List Char) :
    stripTrailing (s.map lowChar) = (stripTrailing s).map lowChar := by
  unfold stripTrailing
  rw [← List.map_reverse, dropWhileSlash_map, List.map_reverse]

theorem afterSlash_map (s : List Char) :
    afterSlash (s.map lowChar) = (afterSlash s).map lowChar := by
  induction s with
  | nil => rfl
  | cons c rest ih =>
    simp only [List.map_cons, afterSlash]
    rw [hasChar_map_lowChar lowChar_slash_iff]
    by_cases h : hasChar '/' rest = true
    · simp [h, ih]
    · simp only [h, Bool.false_eq_true, if_false]
      by_cases hc : c = '/'
      · subst hc
        have h1 : lowChar '/' = '/' := by decide
        simp [h1]
      · have h2 : lowChar c ≠ '/' := fun hh => hc ((lowChar_slash_iff c).mp hh)
        simp [hc, h2]

theorem lastDotSuffix_map (s : List Char) :
    lastDotSuffix (s.map lowChar) = (lastDotSuffix s).map lowChar := by
  induction s with
  | nil => rfl
  | cons c rest ih =>
    simp only [List.map_cons, lastDotSuffix]
    rw [hasChar_map_lowChar lowChar_dot_iff]
    by_cases h : hasChar '.' rest = true
    · simp [h, ih]
    · by_cases hc : c = '.'
      · subst hc
        have h1 : lowChar '.' = '.' := by decide
        simp [h, h1]
      · have h2 : lowChar c ≠ '.' := fun hh => hc ((lowChar_dot_iff c).mp hh)
        simp [h, hc, h2]

theorem map_lowChar_eq_dotdot {b : List Char} :
    b.map lowChar = ['.', '.'] ↔ b = ['.', '.'] := by
  constructor
  · intro h
    cases b with
    | nil => simp at h
    | cons c1 t =>
      cases t with
      | nil => simp at h
      | cons c2 t2 =>
        cases t2 with
        | cons c3 t3 => simp at h
        | nil =>
          simp only [List.map_cons, List.map_nil, List.cons.injEq,
            and_true] at h
          rw [(lowChar_dot_iff c1).mp h.1, (lowChar_dot_iff c2).mp h.2]
  · intro h
    subst h
    decide

theorem extnameOfBase_map (b : List Char) :
    extnameOfBase (b.map lowChar) = (extnameOfBase b).map lowChar := by
  unfold extnameOfBase
  by_cases hb : b = ['.', '.']
  · subst hb
    decide
  · have hb2 : ¬ b.map lowChar = ['.', '.'] := fun h =>
      hb (map_lowChar_eq_dotdot.mp h)
    rw [if_neg hb2, if_neg hb]
    cases b with
    | nil => rfl
    | cons c rest =>
      simp only [List.map_cons]
      rw [hasChar_map_lowChar lowChar_dot_iff]
      by_cases h : hasChar '.' rest = true
      · simp [h, lastDotSuffix_map]
      · simp [h]

theorem extname_lowerStr (s : String) :
    extname (lowerStr s) = lowerStr (extname s) := by
  show (⟨extnameOfBase (afterSlash (stripTrailing (s.data.map lowChar)))⟩ : String)
      = ⟨(extnameOfBase (afterSlash (stripTrailing s.data))).map lowChar⟩
  rw [stripTrailing_map, afterSlash_map, extnameOfBase_map]

theorem map_lowChar_idem (l : List Char) :
    (l.map lowChar).map lowChar = l.map lowChar := by
  induction l with
  | nil => rfl
  | cons c rest ih =>
    have h : lowChar (lowChar c) = lowChar c := by
      by_cases hex : ∃ v, assocFind lowPairs c = some v
      · obtain ⟨v, hv⟩ := hex
        have h1 : lowChar c = v := by unfold lowChar; rw [hv]; rfl
        have hall : ∀ p ∈ lowPairs, assocFind lowPairs p.2 = none := by decide
        have h2 : assocFind lowPairs v = none := hall _ (assocFind_mem hv)
        rw [h1]
        unfold lowChar
        rw [h2]
        rfl
      · have h0 : assocFind lowPairs c = none := by
          cases hf : assocFind lowPairs c with
          | none => rfl
          | some v => exact absurd ⟨v, hf⟩ hex
        have h1 : lowChar c = c := by unfold lowChar; rw [h0]; rfl
        rw [h1, h1]
    simp [h, ih]

theorem lowerStr_idem (s : String) : lowerStr (lowerStr s) = lowerStr s := by
  show (⟨(s.data.map lowChar).map lowChar⟩ : String) = ⟨s.data.map lowChar⟩
  rw [map_lowChar_idem]

/-- C10: FilesService.getContentType is total, returns the MIME type mapped
to the filename's lowercased extension (so extension matching is
case-insensitive: the result on any filename equals the result on its
lowercased form), and returns application/octet-stream whenever the
lowercased extension is not among the listed keys, in particular for
filenames with no extension at all. -/
theorem getContentType_extension_spec (fn : String) :
    (∀ m, assocFind contentTypes (lowerStr (extname fn)) = some m →
      getContentType fn = m) ∧
    (assocFind contentTypes (lowerStr (extname fn)) = none →
      getContentType fn = "application/octet-stream") ∧
    getContentType fn = getContentType (lowerStr fn) ∧
    (extname fn = "" → getContentType fn = "application/octet-stream") := by
  refine ⟨?_, ?_, ?_, ?_⟩
  · intro m h
    unfold getContentType
    rw [h]
  · intro h
    unfold getContentType
    rw [h]
  · unfold getContentType
    rw [extname_lowerStr, lowerStr_idem]
  · intro h
    unfold getContentType
    rw [h]
    rfl

/-- Witness for C10 at concrete filenames: an uppercase extension is matched
case-insensitively, an unlisted extension and an extension-less name fall
back to application/octet-stream. -/
theorem getContentType_extension_spec_witness :
    getContentType "photo.JPG" = "image/jpeg" ∧
    getContentType "archive.tar.unknown" = "application/octet-stream" ∧
    getContentType "README" = "application/octet-stream" := by
  refine ⟨?_, ?_, ?_⟩
  · exact (getContentType_extension_spec "photo.JPG").1 "image/jpeg" (by decide)
  · exact (getContentType_extension_spec "archive.tar.unknown").2.1 (by decide)
  · exact (getContentType_extension_spec "README").2.2.2 (by decide)

/-- C9: FilesService.detectProvider returns the configured STORAGE_PROVIDER
whenever it is set to a non-empty value, overriding all endpoint-based
detection; with no configured endpoint it returns aws-s3; an endpoint
containing digitaloceanspaces.com detects digitalocean-spaces with precedence
over every other substring check; otherwise an endpoint containing minio,
localhost or 127.0.0.1 detects minio; any other endpoint detects
s3-compatible. -/
theorem detectProvider_spec (ep endp : Option String) :
    (∀ p, ep = some p → p ≠ "" → detectProvider ep endp = p) ∧
    ((ep = none ∨ ep = some "") → (endp = none ∨ endp = some "") →
      detectProvider ep endp = "aws-s3") ∧
    (∀ e, (ep = none ∨ ep = some "") → endp = some e → e ≠ "" →
      strIncludes e "digitaloceanspaces.com" = true →
      detectProvider ep endp = "digitalocean-spaces") ∧
    (∀ e, (ep = none ∨ ep = some "") → endp = some e → e ≠ "" →
      strIncludes e "digitaloceanspaces.com" = false →
      (strIncludes e "minio" || strIncludes e "localhost"
        || strIncludes e "127.0.0.1") = true →
      detectProvider ep endp = "minio") ∧
    (∀ e, (ep = none ∨ ep = some "") → endp = some e → e ≠ "" →
      strIncludes e "digitaloceanspaces.com" = false →
      (strIncludes e "minio" || strIncludes e "localhost"
        || strIncludes e "127.0.0.1") = false →
      detectProvider ep endp = "s3-compatible") := by
  refine ⟨?_, ?_, ?_, ?_, ?_⟩
  · intro p hep hp
    subst hep
    have ht : jsTruthy (some p) = true := by simp [jsTruthy, hp]
    simp [detectProvider, ht]
  · intro h1 h2
    have ht : jsTruthy ep = false := by
      rcases h1 with h | h <;> subst h <;> rfl
    have ht2 : jsTruthy endp = false := by
      rcases h2 with h | h <;> subst h <;> rfl
    simp [detectProvider, ht, ht2]
  · intro e h1 he hne hinc
    have ht : jsTruthy ep = false := by
      rcases h1 with h | h <;> subst h <;> rfl
    subst he
    have ht2 : jsTruthy (some e) = true := by simp [jsTruthy, hne]
    simp [detectProvider, ht, ht2, hinc]
  · intro e h1 he hne hdo hmin
    have ht : jsTruthy ep = false := by
      rcases h1 with h | h <;> subst h <;> rfl
    subst he
    have ht2 : jsTruthy (some e) = true := by simp [jsTruthy, hne]
    simp [detectProvider, ht, ht2, hdo, hmin]
  · intro e h1 he hne hdo hmin
    have ht : jsTruthy ep = false := by
      rcases h1 with h | h <;> subst h <;> rfl
    subst he
    have ht2 : jsTruthy (some e) = true := by simp [jsTruthy, hne]
    simp [detectProvider, ht, ht2, hdo, hmin]

/-- Witness for C9 at concrete configuration states, including the precedence
case of an endpoint containing both digitaloceanspaces.com and localhost. -/
theorem detectProvider_spec_witness :
    detectProvider (some "custom-provider") (some "http://localhost:9000")
      = "custom-provider" ∧
    detectProvider none none = "aws-s3" ∧
    detectProvider none (some "https://digitaloceanspaces.com/localhost")
      = "digitalocean-spaces" ∧
    detectProvider (some "") (some "http://localhost:9000") = "minio" ∧
    detectProvider none (some "https://s3.example.com") = "s3-compatible" := by
  refine ⟨?_, ?_, ?_, ?_, ?_⟩
  · exact (detectProvider_spec _ _).1 _ rfl (by decide)
  · exact (detectProvider_spec _ _).2.1 (Or.inl rfl) (Or.inl rfl)
  · exact (detectProvider_spec _ _).2.2.1 _ (Or.inl rfl) rfl (by decide)
      (by decide)
  · exact (detectProvider_spec _ _).2.2.2.1 _ (Or.inr rfl) rfl (by decide)
      (by decide) (by decide)
  · exact (detectProvider_spec _ _).2.2.2.2 _ (Or.inl rfl) rfl (by decide)
      (by decide) (by decide)

/-! Claim C7: TemplateRenderer.  The renderer implementation is not part of
the source snapshot; it is modelled from the specification.  The two file
contents below are taken verbatim from the repository. -/

/-- Replaces every occurrence of `pat` in a character list by `rep`, scanning
left to right; the fuel argument bounds the number of scanning steps. -/
def replaceAll (pat rep : List Char) : Nat → List Char → List Char
  | 0, s => s
  | _ + 1, [] => []
  | fuel + 1, c :: rest =>
    if pat ≠ [] ∧ leadsWith pat (c :: rest) = true then
      rep ++ replaceAll pat rep fuel ((c :: rest).drop pat.length)
    else c :: replaceAll pat rep fuel rest

/-- Modelled from the spec: the TemplateRenderer component (not present in the
source snapshot) substitutes every recognized placeholder token
`\x7b\x7bname\x7d\x7d` appearing in a template-flagged file with the
corresponding value from the variables map; it is a pure function of
(content, variables). -/
def renderTemplate (content : String) (vars : List (String × String)) : String :=
  ⟨vars.foldl
    (fun s kv =>
      replaceAll ("\x7b\x7b" ++ kv.1 ++ "\x7d\x7d").data kv.2.data s.length s)
    content.data⟩

/-- Content of boiler-templates/presets/nestjs-base/base/src/app.service.ts. -/
def nestjsBaseAppService : String :=
  "import \x7b Injectable \x7d from \x27@nestjs/common\x27;\n\n@Injectable()\nexport class AppService \x7b\n  getHello(): string \x7b\n    return \x27Hello from \x7b\x7bprojectName\x7d\x7d! 🚀\x27;\n  \x7d\n\n  getHealth(): \x7b status: string; timestamp: string \x7d \x7b\n    return \x7b\n      status: \x27ok\x27,\n      timestamp: new Date().toISOString(),\n    \x7d;\n  \x7d\n\x7d"

/-- Content of the generated new-testing-latest/src/app.service.ts. -/
def newTestingLatestAppService : String :=
  "import \x7b Injectable \x7d from \x27@nestjs/common\x27;\n\n@Injectable()\nexport class AppService \x7b\n  getHello(): string \x7b\n    return \x27Hello from new-testing-latest! 🚀\x27;\n  \x7d\n\n  getHealth(): \x7b status: string; timestamp: string \x7d \x7b\n    return \x7b\n      status: \x27ok\x27,\n      timestamp: new Date().toISOString(),\n    \x7d;\n  \x7d\n\x7d"

/-- C7: rendering the nestjs-base preset app.service.ts template with the
variable projectName set to new-testing-latest substitutes the recognized
placeholder everywhere and yields exactly the generated file (whose getHello
returns the greeting for new-testing-latest); no placeholder token is left in
the output.  Purity holds by construction: renderTemplate is a function of
(content, variables) alone. -/
theorem renderTemplate_projectName :
    renderTemplate nestjsBaseAppService [("projectName", "new-testing-latest")]
      = newTestingLatestAppService ∧
    strIncludes newTestingLatestAppService "\x7b\x7bprojectName\x7d\x7d" = false := by
  constructor
  · decide
  · decide

/-! Claim C4: ManifestMerger.  The merger implementation is not part of the
source snapshot; it is modelled from the specification. -/

/-- Error taxonomy of the engine, following section 7 of the specification. -/
inductive EngineError where
  | missingDependency (offender : String) (missing : List String)
  | conflictPair (a b : String)
  | versionConflict (pkg oldSpec newSpec : String)
  | anchorNotFound (owner targetFile marker : String)
deriving DecidableEq

/-- Decimal digit test. -/
def isDigitCh (c : Char) : Bool := decide ('0' ≤ c ∧ c ≤ '9')

/-- Parses a non-empty all-digit character list as a natural number. -/
def parseNatDigits (cs : List Char) : Option Nat :=
  if cs ≠ [] ∧ cs.all isDigitCh = true then
    some (cs.foldl (fun n c => n * 10 + (c.toNat - 48)) 0)
  else none

/-- Splits a character list on dots. -/
def splitOnDot : List Char → List (List Char)
  | [] => [[]]
  | c :: rest =>
    if c = '.' then [] :: splitOnDot rest
    else
      match splitOnDot rest with
      | h :: t => (c :: h) :: t
      | [] => [[c]]

/-- Modelled from the spec: a simple `^`/`~`-prefixed semantic version is a
caret or tilde followed by exactly three dot-separated decimal components.
The parser returns the numeric triple when the spec string has this shape. -/
def parseSimple (s : String) : Option (Nat × Nat × Nat) :=
  match s.data with
  | [] => none
  | c :: rest =>
    if c = '^' ∨ c = '~' then
      match splitOnDot rest with
      | [a, b, d] =>
        match parseNatDigits a, parseNatDigits b, parseNatDigits d with
        | some x, some y, some z => some (x, y, z)
        | _, _, _ => none
      | _ => none
    else none

/-- Strict ordering of semantic-version triples. -/
def tripleLt : Nat × Nat × Nat → Nat × Nat × Nat → Bool
  | (a1, b1, c1), (a2, b2, c2) =>
    decide (a1 < a2) ||
      (decide (a1 = a2) &&
        (decide (b1 < b2) || (decide (b1 = b2) && decide (c1 < c2))))

/-- Modelled from the spec: tie-break rule of ManifestMerger (not present in
the source snapshot).  Equal specs are kept; if both specs are simple
prefixed semantic versions the semantically higher one wins (with the
lexicographically higher token winning a semantic tie); otherwise merging
fails with DependencyVersionConflictError naming the package and both
specs. -/
def mergeSpec (pkg oldSpec newSpec : String) : Except EngineError String :=
  if oldSpec = newSpec then .ok oldSpec
  else
    match parseSimple oldSpec, parseSimple newSpec with
    | some a, some b =>
      if tripleLt a b then .ok newSpec
      else if tripleLt b a then .ok oldSpec
      else if oldSpec < newSpec then .ok newSpec else .ok oldSpec
    | _, _ => .error (.versionConflict pkg oldSpec newSpec)

/-- Replaces the value recorded for a key in an association list. -/
def setVal : List (String × String) → String → String → List (String × String)
  | [], _, _ => []
  | kv :: rest, k, v => if kv.1 = k then (k, v) :: rest else kv :: setVal rest k v

/-- Modelled from the spec: one fold step of ManifestMerger, merging a single
package declaration into the accumulator keyed by package name. -/
def mergeDepsStep (acc : List (String × String)) (decl : String × String) :
    Except EngineError (List (String × String)) :=
  match assocFind acc decl.1 with
  | none => .ok (acc ++ [decl])
  | some oldSpec =>
    match mergeSpec decl.1 oldSpec decl.2 with
    | .ok w => .ok (setVal acc decl.1 w)
    | .error e => .error e

/-- Folds one module's declarations into the accumulator. -/
def mergeInto (acc : List (String × String)) :
    List (String × String) → Except EngineError (List (String × String))
  | [] => .ok acc
  | d :: rest =>
    match mergeDepsStep acc d with
    | .ok acc2 => mergeInto acc2 rest
    | .error e => .error e

/-- Modelled from the spec: ManifestMerger folds, in application order, each
module's dependency declarations into an accumulator seeded with the base
manifest. -/
def mergeDeps (base : List (String × String)) :
    List (List (String × String)) → Except EngineError (List (String × String))
  | [] => .ok base
  | m :: rest =>
    match mergeInto base m with
    | .ok acc2 => mergeDeps acc2 rest
    | .error e => .error e

theorem assocFind_setVal {acc : List (String × String)} {k : String}
    {v0 : String} (h : assocFind acc k = some v0) (v : String) :
    assocFind (setVal acc k v) k = some v := by
  induction acc with
  | nil => simp [assocFind] at h
  | cons kv rest ih =>
    rw [assocFind] at h
    by_cases hk : kv.1 = k
    · simp [setVal, hk, assocFind]
    · rw [if_neg hk] at h
      simp [setVal, hk, assocFind, ih h]

theorem tripleLt_asymm (a b : Nat × Nat × Nat) :
    tripleLt a b = true → tripleLt b a = false := by
  obtain ⟨a1, b1, c1⟩ := a
  obtain ⟨a2, b2, c2⟩ := b
  simp only [tripleLt, Bool.or_eq_true, Bool.and_eq_true, decide_eq_true_eq,
    Bool.or_eq_false_iff, Bool.and_eq_false_iff, decide_eq_false_iff_not]
  omega

/-- C4: in a fold step of ManifestMerger where the package already has a
recorded spec and a different spec arrives, the step keeps the semantically
higher spec when both are simple prefixed semantic versions, fails with
DependencyVersionConflictError naming the package and both specs otherwise,
and a differing later spec never silently wins: the recorded spec can become
the new one only when both specs parse and the new one is not lower.  The
specification's two concrete merge examples are included. -/
theorem mergeStep_tiebreak_spec (acc : List (String × String))
    (pkg oldSpec newSpec : String)
    (hrec : assocFind acc pkg = some oldSpec) (hne : oldSpec ≠ newSpec) :
    (∀ a b, parseSimple oldSpec = some a → parseSimple newSpec = some b →
      (tripleLt a b = true →
        mergeDepsStep acc (pkg, newSpec) = .ok (setVal acc pkg newSpec)) ∧
      (tripleLt b a = true →
        mergeDepsStep acc (pkg, newSpec) = .ok (setVal acc pkg oldSpec))) ∧
    ((parseSimple oldSpec = none ∨ parseSimple newSpec = none) →
      mergeDepsStep acc (pkg, newSpec)
        = .error (.versionConflict pkg oldSpec newSpec)) ∧
    (∀ acc2, mergeDepsStep acc (pkg, newSpec) = .ok acc2 →
      assocFind acc2 pkg = some newSpec →
      ∃ a b, parseSimple oldSpec = some a ∧ parseSimple newSpec = some b ∧
        tripleLt b a = false) ∧
    mergeDeps [("x", "^1.0.0")] [[("x", "^2.0.0")]] = .ok [("x", "^2.0.0")] ∧
    mergeDeps [("x", "1.2.3")] [[("x", "2.0.0-custom")]]
      = .error (.versionConflict "x" "1.2.3" "2.0.0-custom") := by
  refine ⟨?_, ?_, ?_, by rfl, by rfl⟩
  · intro a b ha hb
    constructor
    · intro hlt
      have hm : mergeSpec pkg oldSpec newSpec = .ok newSpec := by
        unfold mergeSpec
        rw [if_neg hne, ha, hb]
        simp only [hlt, if_true]
      simp [mergeDepsStep, hrec, hm]
    · intro hlt
      have hlf : tripleLt a b = false := tripleLt_asymm b a hlt
      have hm : mergeSpec pkg oldSpec newSpec = .ok oldSpec := by
        unfold mergeSpec
        rw [if_neg hne, ha, hb]
        simp only [hlf, hlt, Bool.false_eq_true, if_false, if_true]
      simp [mergeDepsStep, hrec, hm]
  · intro h
    have hm : mergeSpec pkg oldSpec newSpec
        = .error (.versionConflict pkg oldSpec newSpec) := by
      unfold mergeSpec
      rw [if_neg hne]
      rcases h with h | h
      · rw [h]
      · rw [h]
        cases parseSimple oldSpec <;> rfl
    simp [mergeDepsStep, hrec, hm]
  · intro acc2 hstep hfind
    simp only [mergeDepsStep, hrec] at hstep
    cases hm : mergeSpec pkg oldSpec newSpec with
    | error e =>
      rw [hm] at hstep
      simp at hstep
    | ok w =>
      rw [hm] at hstep
      simp only [] at hstep
      injection hstep with hacc
      subst hacc
      rw [assocFind_setVal hrec w] at hfind
      injection hfind with hw
      rw [hw] at hm
      unfold mergeSpec at hm
      rw [if_neg hne] at hm
      cases ha : parseSimple oldSpec with
      | none =>
        rw [ha] at hm
        cases hb : parseSimple newSpec <;> rw [hb] at hm <;> cases hm
      | some a =>
        rw [ha] at hm
        cases hb : parseSimple newSpec with
        | none => rw [hb] at hm; cases hm
        | some b =>
          rw [hb] at hm
          refine ⟨a, b, rfl, rfl, ?_⟩
          by_cases h1 : tripleLt a b = true
          · exact tripleLt_asymm a b h1
          · by_cases h2 : tripleLt b a = true
            · exfalso
              have hm2 : Except.ok (ε := EngineError) oldSpec
                  = Except.ok newSpec := by
                rw [← hm]
                simp [h1, h2]
              injection hm2 with hm3
              exact hne hm3
            · exact Bool.eq_false_iff.mpr h2

/-- Witness for C4: the specification's merge examples, produced by applying
the tie-break theorem at its concrete inputs. -/
theorem mergeStep_tiebreak_spec_witness :
    mergeDepsStep [("x", "^1.0.0")] ("x", "^2.0.0") = .ok [("x", "^2.0.0")] ∧
    mergeDepsStep [("x", "1.2.3")] ("x", "2.0.0-custom")
      = .error (.versionConflict "x" "1.2.3" "2.0.0-custom") := by
  constructor
  · have h := (mergeStep_tiebreak_spec [("x", "^1.0.0")] "x" "^1.0.0" "^2.0.0"
      (by decide) (by decide)).1 (1, 0, 0) (2, 0, 0) (by decide) (by decide)
    exact (h.1 (by decide)).trans (by rfl)
  · exact (mergeStep_tiebreak_spec [("x", "1.2.3")] "x" "1.2.3" "2.0.0-custom"
      (by decide) (by decide)).2.1 (Or.inl (by decide))

/-! Claims C5 and C6: CodeInjector.  The injector implementation is not part
of the source snapshot; it is modelled from the specification. -/

/-- Declarative injection directive of a module manifest. -/
structure AnchorDirective where
  targetFile : String
  kind : String
  lines : List String
  anchorMarker : String
deriving DecidableEq

/-- A directive tagged with its owning module name. -/
abbrev TaggedDirective := String × AnchorDirective

/-- Splits a list as `pre ++ pat ++ post` at the first occurrence of `pat`,
returning `(pre, post)`. -/
def splitFirst (pat : List Char) : List Char → Option (List Char × List Char)
  | [] => if pat = [] then some ([], []) else none
  | c :: rest =>
    if leadsWith pat (c :: rest) = true then
      some ([], (c :: rest).drop pat.length)
    else
      match splitFirst pat rest with
      | some (p, q) => some (c :: p, q)
      | none => none

/-- Joins inserted lines, each terminated by a newline. -/
def joinLines (lns : List String) : List Char :=
  (lns.map (fun l => l.data ++ ['\n'])).flatten

/-- Modelled from the spec: applying one AnchorDirective.  A directive whose
key (module, file, marker, lines) was already applied in this run is skipped;
otherwise the marker is located in the current content of the target file and
the lines are inserted immediately before it; an absent marker (or absent
target file) aborts with AnchorNotFoundError naming module, file and
marker. -/
def applyDirective (applied : List TaggedDirective)
    (tree : List (String × String)) (d : TaggedDirective) :
    Except EngineError (List TaggedDirective × List (String × String)) :=
  if d ∈ applied then .ok (applied, tree)
  else
    match assocFind tree d.2.targetFile with
    | none => .error (.anchorNotFound d.1 d.2.targetFile d.2.anchorMarker)
    | some content =>
      match splitFirst d.2.anchorMarker.data content.data with
      | none => .error (.anchorNotFound d.1 d.2.targetFile d.2.anchorMarker)
      | some (pre, post) =>
        .ok (d :: applied,
          setVal tree d.2.targetFile
            ⟨pre ++ joinLines d.2.lines ++ d.2.anchorMarker.data ++ post⟩)

/-- Processes a list of directives, threading the applied set and the tree. -/
def goInj (applied : List TaggedDirective) (tree : List (String × String)) :
    List TaggedDirective →
      Except EngineError (List TaggedDirective × List (String × String))
  | [] => .ok (applied, tree)
  | d :: rest =>
    match applyDirective applied tree d with
    | .ok (a2, t2) => goInj a2 t2 rest
    | .error e => .error e

/-- Modelled from the spec: CodeInjector runs all directives in application
order over the in-progress tree; the tree is returned only when every
directive succeeded, otherwise the structured error is returned and no tree
is observable. -/
def runInjector (tree : List (String × String)) (ds : List TaggedDirective) :
    Except EngineError (List (String × String)) :=
  match goInj [] tree ds with
  | .ok (_, t) => .ok t
  | .error e => .error e

theorem applyDirective_mem {applied : List TaggedDirective}
    {tree : List (String × String)} {d : TaggedDirective}
    {a2 : List TaggedDirective} {t2 : List (String × String)}
    (h : applyDirective applied tree d = .ok (a2, t2)) :
    d ∈ a2 ∧ ∀ x ∈ applied, x ∈ a2 := by
  unfold applyDirective at h
  split at h
  · rename_i hd
    simp only [Except.ok.injEq, Prod.mk.injEq] at h
    obtain ⟨rfl, rfl⟩ := h
    exact ⟨hd, fun x hx => hx⟩
  · split at h
    · cases h
    · split at h
      · cases h
      · simp only [Except.ok.injEq, Prod.mk.injEq] at h
        obtain ⟨rfl, rfl⟩ := h
        exact ⟨List.mem_cons_self d applied,
          fun x hx => List.mem_cons_of_mem d hx⟩

theorem goInj_append (applied : List TaggedDirective)
    (tree : List (String × String)) (ds₁ ds₂ : List TaggedDirective) :
    goInj applied tree (ds₁ ++ ds₂)
      = match goInj applied tree ds₁ with
        | .ok (a2, t2) => goInj a2 t2 ds₂
        | .error e => .error e := by
  induction ds₁ generalizing applied tree with
  | nil => simp [goInj]
  | cons d rest ih =>
    simp only [List.cons_append, goInj]
    cases applyDirective applied tree d with
    | ok p =>
      obtain ⟨a2, t2⟩ := p
      simp [ih]
    | error e => rfl

theorem goInj_dup (d : TaggedDirective) :
    ∀ (ds applied : List TaggedDirective) (tree : List (String × String)),
      (d ∈ ds ∨ d ∈ applied) →
      goInj applied tree (ds ++ [d]) = goInj applied tree ds := by
  intro ds
  induction ds with
  | nil =>
    intro applied tree h
    rcases h with h | h
    · exact absurd h (List.not_mem_nil d)
    · simp only [List.nil_append, goInj, applyDirective, if_pos h]
  | cons d0 rest ih =>
    intro applied tree h
    simp only [List.cons_append, goInj]
    cases hap : applyDirective applied tree d0 with
    | error e => rfl
    | ok p =>
      obtain ⟨a2, t2⟩ := p
      apply ih
      rcases h with h | h
      · rcases List.mem_cons.mp h with h1 | h1
        · subst h1
          exact Or.inr (applyDirective_mem hap).1
        · exact Or.inl h1
      · exact Or.inr ((applyDirective_mem hap).2 d h)

/-- C5: within one injector run a directive key (module, file, marker,
lines) already processed is never applied again, so appending a duplicate of
a directive already in the run changes nothing and no insertion is ever
duplicated; moreover the injector is a pure function, so running it over a
fresh copy of the same base tree with the same directives always yields
byte-identical output. -/
theorem injector_at_most_once :
    (∀ (tree : List (String × String)) (ds : List TaggedDirective)
        (d : TaggedDirective), d ∈ ds →
      runInjector tree (ds ++ [d]) = runInjector tree ds) ∧
    (∀ (tree : List (String × String)) (ds : List TaggedDirective),
      runInjector tree ds = runInjector tree ds) := by
  refine ⟨?_, fun _ _ => rfl⟩
  intro tree ds d hd
  unfold runInjector
  rw [goInj_dup d ds [] tree (Or.inl hd)]

/-- Demonstration base tree: an anchor file with two markers. -/
def demoTree : List (String × String) :=
  [("src/app.module.ts", "// IMPORTS\n// MODULES\n")]

/-- Demonstration directive with a marker present in the base tree. -/
def demoDirective : TaggedDirective :=
  ("file-storage", ⟨"src/app.module.ts", "import", ["import x;"], "// MODULES"⟩)

/-- Demonstration directive whose marker is absent from the base tree. -/
def demoMissingDirective : TaggedDirective :=
  ("auth", ⟨"src/app.module.ts", "register", ["AuthModule,"], "// MISSING-MARKER"⟩)

/-- Witness for C5: applying the same directive twice equals applying it
once. -/
theorem injector_at_most_once_witness :
    runInjector demoTree [demoDirective, demoDirective]
      = runInjector demoTree [demoDirective] :=
  injector_at_most_once.1 demoTree [demoDirective] demoDirective (by decide)

/-- Boolean test that a directive's anchor marker does not occur in the
current content of its target file (an absent file counts as absent). -/
def anchorAbsent (tree : List (String × String)) (d : TaggedDirective) : Bool :=
  match assocFind tree d.2.targetFile with
  | none => true
  | some content =>
    match splitFirst d.2.anchorMarker.data content.data with
    | none => true
    | some _ => false

/-- C6: if, at the point a directive is processed, its anchor marker is
absent from the current content of its target file, the whole injector run
fails with AnchorNotFoundError naming the module, file and marker, and no
tree is observable from the run: the result is never an ok tree. -/
theorem injector_anchor_abort (tree : List (String × String))
    (ds₁ ds₂ : List TaggedDirective) (d : TaggedDirective)
    (st : List TaggedDirective × List (String × String))
    (h1 : goInj [] tree ds₁ = .ok st)
    (h2 : ¬ d ∈ st.1)
    (h3 : anchorAbsent st.2 d = true) :
    runInjector tree (ds₁ ++ d :: ds₂)
      = .error (.anchorNotFound d.1 d.2.targetFile d.2.anchorMarker) ∧
    ∀ t, runInjector tree (ds₁ ++ d :: ds₂) ≠ .ok t := by
  obtain ⟨a2, t2⟩ := st
  have h4 : ¬ d ∈ a2 := h2
  have h5 : anchorAbsent t2 d = true := h3
  have hgo : goInj [] tree (ds₁ ++ d :: ds₂)
      = .error (.anchorNotFound d.1 d.2.targetFile d.2.anchorMarker) := by
    rw [goInj_append, h1]
    simp only [goInj]
    have hap : applyDirective a2 t2 d
        = .error (.anchorNotFound d.1 d.2.targetFile d.2.anchorMarker) := by
      unfold anchorAbsent at h5
      split at h5
      · rename_i hfind
        simp [applyDirective, if_neg h4, hfind]
      · rename_i content hfind
        split at h5
        · rename_i hsplit
          simp [applyDirective, if_neg h4, hfind, hsplit]
        · cases h5
    rw [hap]
  constructor
  · unfold runInjector
    rw [hgo]
  · intro t hcontra
    unfold runInjector at hcontra
    rw [hgo] at hcontra
    cases hcontra

/-- Witness for C6: the specification's end-to-end scenario C, a directive
whose marker is missing from the anchor file aborts the run with
AnchorNotFoundError. -/
theorem injector_anchor_abort_witness :
    runInjector demoTree [demoDirective, demoMissingDirective]
      = .error (.anchorNotFound "auth" "src/app.module.ts"
          "// MISSING-MARKER") :=
  (injector_anchor_abort demoTree [demoDirective] [] demoMissingDirective
    ([demoDirective],
      [("src/app.module.ts", "// IMPORTS\nimport x;\n// MODULES\n")])
    (by rfl) (by decide) (by decide)).1

/-! Claims C1, C2, C3: DependencyResolver.  The resolver implementation is
not part of the source snapshot; it is modelled from the specification. -/

/-- Module manifest fields relevant to the engine (section 3 of the
specification). -/
structure ModuleManifest where
  name : String
  deps : List (String × String)
  devDeps : List (String × String)
  env : List String
  inject : List AnchorDirective
  conflicts : List String
  requires : List String
deriving DecidableEq

/-- The manifest catalogue loaded by ManifestLoader. -/
abbrev Catalogue := List ModuleManifest

/-- Finds the manifest of a module by name. -/
def findMod : Catalogue → String → Option ModuleManifest
  | [], _ => none
  | m :: rest, n => if m.name = n then some m else findMod rest n

/-- Requirements declared by a module (empty for an unknown name). -/
def reqOf (cat : Catalogue) (n : String) : List String :=
  ((findMod cat n).map ModuleManifest.requires).getD []

/-- Conflicts declared by a module (empty for an unknown name). -/
def conflictsOf (cat : Catalogue) (n : String) : List String :=
  ((findMod cat n).map ModuleManifest.conflicts).getD []

/-- Environment variables declared by a module (empty for an unknown name). -/
def envOf (cat : Catalogue) (n : String) : List String :=
  ((findMod cat n).map ModuleManifest.env).getD []

/-- Dependencies declared by a module (empty for an unknown name). -/
def depsOf (cat : Catalogue) (n : String) : List (String × String) :=
  ((findMod cat n).map ModuleManifest.deps).getD []

/-- Injection directives declared by a module (empty for an unknown name). -/
def injectOf (cat : Catalogue) (n : String) : List AnchorDirective :=
  ((findMod cat n).map ModuleManifest.inject).getD []

/-- Lexicographic comparison of character lists by code point; equal heads
recurse, distinct heads compare their code points. -/
def listLexLe : List Char → List Char → Bool
  | [], _ => true
  | _ :: _, [] => false
  | a :: as, b :: bs =>
    if a = b then listLexLe as bs
    else decide (a.toNat < b.toNat)

/-- Boolean lexicographic order on strings. -/
def strLeB (a b : String) : Bool := listLexLe a.data b.data

/-- Lexicographic order on strings as a proposition. -/
def strLeP (a b : String) : Prop := strLeB a b = true

/-- Strict lexicographic order on strings. -/
def strLt (a b : String) : Prop := strLeP a b ∧ a ≠ b

instance : DecidableRel strLeP := fun a b =>
  inferInstanceAs (Decidable (strLeB a b = true))

instance (a b : String) : Decidable (strLt a b) :=
  inferInstanceAs (Decidable (_ ∧ _))

theorem char_toNat_inj {a b : Char} (h : a.toNat = b.toNat) : a = b :=
  Char.ext (UInt32.ext h)

theorem listLexLe_total : ∀ as bs, listLexLe as bs = true ∨ listLexLe bs as = true := by
  intro as
  induction as with
  | nil => intro bs; exact Or.inl rfl
  | cons a as ih =>
    intro bs
    cases bs with
    | nil => exact Or.inr rfl
    | cons b bs =>
      by_cases hab : a = b
      · subst hab
        rcases ih bs with h | h
        · exact Or.inl (by simp [listLexLe, h])
        · exact Or.inr (by simp [listLexLe, h])
      · have hn : a.toNat ≠ b.toNat := fun hh => hab (char_toNat_inj hh)
        by_cases hlt : a.toNat < b.toNat
        · exact Or.inl (by simp [listLexLe, hab, hlt])
        · have hgt : b.toNat < a.toNat := by omega
          have hba : ¬ b = a := fun hh => hab hh.symm
          exact Or.inr (by simp [listLexLe, hba, hgt])

theorem listLexLe_trans : ∀ as bs cs, listLexLe as bs = true →
    listLexLe bs cs = true → listLexLe as cs = true := by
  intro as
  induction as with
  | nil => intro bs cs _ _; rfl
  | cons a as ih =>
    intro bs cs h1 h2
    cases bs with
    | nil => simp [listLexLe] at h1
    | cons b bs =>
      cases cs with
      | nil => simp [listLexLe] at h2
      | cons c cs =>
        by_cases hab : a = b
        · subst hab
          by_cases hbc : a = c
          · subst hbc
            simp only [listLexLe, if_pos rfl] at h1 h2 ⊢
            exact ih bs cs h1 h2
          · simp only [listLexLe, if_pos rfl] at h1
            simp only [listLexLe, if_neg hbc] at h2 ⊢
            exact h2
        · have h1n : a.toNat < b.toNat := by
            simp only [listLexLe, if_neg hab, decide_eq_true_eq] at h1
            exact h1
          by_cases hbc : b = c
          · subst hbc
            simp only [listLexLe, if_neg hab, decide_eq_true_eq]
            exact h1n
          · have h2n : b.toNat < c.toNat := by
              simp only [listLexLe, if_neg hbc, decide_eq_true_eq] at h2
              exact h2
            have hac : a ≠ c := by
              intro hh
              subst hh
              omega
            simp only [listLexLe, if_neg hac, decide_eq_true_eq]
            omega

theorem listLexLe_antisymm : ∀ as bs, listLexLe as bs = true →
    listLexLe bs as = true → as = bs := by
  intro as
  induction as with
  | nil =>
    intro bs h1 h2
    cases bs with
    | nil => rfl
    | cons b bs => simp [listLexLe] at h2
  | cons a as ih =>
    intro bs h1 h2
    cases bs with
    | nil => simp [listLexLe] at h1
    | cons b bs =>
      by_cases hab : a = b
      · subst hab
        simp only [listLexLe, if_pos rfl] at h1 h2
        rw [ih bs h1 h2]
      · exfalso
        simp only [listLexLe, if_neg hab, decide_eq_true_eq] at h1
        simp only [listLexLe, if_neg (fun hh => hab (Eq.symm hh)),
          decide_eq_true_eq] at h2
        omega

instance : IsTotal String strLeP :=
  ⟨fun a b => listLexLe_total a.data b.data⟩

instance : IsTrans String strLeP :=
  ⟨fun a b c h1 h2 => listLexLe_trans a.data b.data c.data h1 h2⟩

instance : IsAntisymm String strLeP :=
  ⟨fun a b h1 h2 => by
    have h3 := listLexLe_antisymm a.data b.data h1 h2
    cases a
    cases b
    exact congrArg String.mk h3⟩

/-- Canonical form of a selection: duplicates removed, names sorted in
ascending lexicographic order. -/
def orderedSelection (sel : List String) : List String :=
  List.insertionSort strLeP sel.dedup

theorem mem_orderedSelection {sel : List String} {x : String} :
    x ∈ orderedSelection sel ↔ x ∈ sel := by
  unfold orderedSelection
  rw [(List.perm_insertionSort strLeP sel.dedup).mem_iff, List.mem_dedup]

theorem orderedSelection_nodup (sel : List String) :
    (orderedSelection sel).Nodup :=
  (List.perm_insertionSort strLeP sel.dedup).nodup_iff.mpr
    (List.nodup_dedup sel)

theorem orderedSelection_sorted (sel : List String) :
    (orderedSelection sel).Pairwise strLt := by
  have h1 : (orderedSelection sel).Pairwise strLeP :=
    List.sorted_insertionSort strLeP sel.dedup
  have h2 : (orderedSelection sel).Pairwise (fun a b : String => a ≠ b) :=
    orderedSelection_nodup sel
  exact (h1.and h2).imp (fun h => ⟨h.1, h.2⟩)

theorem orderedSelection_perm_congr {sel₁ sel₂ : List String}
    (h : List.Perm sel₁ sel₂) :
    orderedSelection sel₁ = orderedSelection sel₂ := by
  unfold orderedSelection
  refine List.eq_of_perm_of_sorted ?_ (List.sorted_insertionSort strLeP _)
    (List.sorted_insertionSort strLeP _)
  exact ((List.perm_insertionSort strLeP _).trans h.dedup).trans
    (List.perm_insertionSort strLeP _).symm

/-- Readiness: every requirement of `m` is already in `done`. -/
def Ready (req : String → List String) (done : List String) (m : String) : Prop :=
  ∀ r ∈ req m, r ∈ done

/-- Picks the first element of the list whose requirements are all satisfied
by `done`, returning it and the remaining elements in order. -/
def pickReady (req : String → List String) (done : List String) :
    List String → Option (String × List String)
  | [] => none
  | m :: rest =>
    if ∀ r ∈ req m, r ∈ done then some (m, rest)
    else
      match pickReady req done rest with
      | some (m2, rest2) => some (m2, m :: rest2)
      | none => none

/-- Kahn's algorithm with deterministic choice: repeatedly emit the first
ready element of the (lexicographically sorted) remaining list. -/
def kahnAux (req : String → List String) :
    Nat → List String → List String → List String
  | 0, done, remaining => done ++ remaining
  | fuel + 1, done, remaining =>
    match pickReady req done remaining with
    | none => done ++ remaining
    | some (m, rest) => kahnAux req fuel (done ++ [m]) rest

/-- A list is greedily lexicographic-topological for `req` when every element
appears after all its requirements and is the lexicographically least element
that was ready at its position. -/
def GoodFrom (req : String → List String) : List String → List String → Prop
  | _, [] => True
  | earlier, m :: rest =>
    (∀ r ∈ req m, r ∈ earlier) ∧
    (∀ m2 ∈ rest, (∀ r ∈ req m2, r ∈ earlier) → strLt m m2) ∧
    GoodFrom req (earlier ++ [m]) rest

/-- Split form of the greedy lexicographic-topological property: at every
split point the emitted element has all requirements earlier, and precedes
lexicographically every later element that was also ready. -/
def IsLexTopo (req : String → List String) (l : List String) : Prop :=
  ∀ l₁ m l₂, l = l₁ ++ m :: l₂ →
    (∀ r ∈ req m, r ∈ l₁) ∧
    (∀ m2 ∈ l₂, (∀ r ∈ req m2, r ∈ l₁) → strLt m m2)

theorem goodFrom_split (req : String → List String) :
    ∀ (l₁ : List String) (e l : List String) (m : String) (l₂ : List String),
      GoodFrom req e l → l = l₁ ++ m :: l₂ →
      (∀ r ∈ req m, r ∈ e ++ l₁) ∧
      (∀ m2 ∈ l₂, (∀ r ∈ req m2, r ∈ e ++ l₁) → strLt m m2) := by
  intro l₁
  induction l₁ with
  | nil =>
    intro e l m l₂ hg heq
    subst heq
    obtain ⟨h1, h2, _⟩ := hg
    constructor
    · intro r hr
      simpa using h1 r hr
    · intro m2 hm2 hready
      exact h2 m2 hm2 (by simpa using hready)
  | cons x t ih =>
    intro e l m l₂ hg heq
    subst heq
    obtain ⟨_, _, hg3⟩ := hg
    have hres := ih (e ++ [x]) (t ++ m :: l₂) m l₂ hg3 rfl
    constructor
    · intro r hr
      have := hres.1 r hr
      simpa [List.append_assoc] using this
    · intro m2 hm2 hready
      refine hres.2 m2 hm2 ?_
      intro r hr
      have := hready r hr
      simpa [List.append_assoc] using this

theorem isLexTopo_of_goodFrom {req : String → List String} {l : List String}
    (h : GoodFrom req [] l) : IsLexTopo req l := by
  intro l₁ m l₂ heq
  have hres := goodFrom_split req l₁ [] l m l₂ h heq
  constructor
  · intro r hr
    simpa using hres.1 r hr
  · intro m2 hm2 hready
    exact hres.2 m2 hm2 (by simpa using hready)

theorem pickReady_none {req : String → List String} {done : List String} :
    ∀ {l : List String}, pickReady req done l = none →
      ∀ x ∈ l, ¬ Ready req done x := by
  intro l
  induction l with
  | nil =>
    intro _ x hx
    cases hx
  | cons m rest ih =>
    intro h x hx
    unfold pickReady at h
    split at h
    · cases h
    · rename_i hm
      rcases List.mem_cons.mp hx with rfl | hx2
      · exact hm
      · cases hpr : pickReady req done rest with
        | some p =>
          obtain ⟨m2, r2⟩ := p
          rw [hpr] at h
          cases h
        | none => exact ih hpr x hx2

theorem pickReady_some {req : String → List String} {done : List String} :
    ∀ {l : List String} {m : String} {rest : List String},
      pickReady req done l = some (m, rest) →
      ∃ l₁ l₂, l = l₁ ++ m :: l₂ ∧ rest = l₁ ++ l₂ ∧
        (∀ x ∈ l₁, ¬ Ready req done x) ∧ Ready req done m := by
  intro l
  induction l with
  | nil =>
    intro m rest h
    cases h
  | cons m0 rest0 ih =>
    intro m rest h
    unfold pickReady at h
    split at h
    · rename_i hm0
      simp only [Option.some.injEq, Prod.mk.injEq] at h
      obtain ⟨rfl, rfl⟩ := h
      exact ⟨[], rest0, rfl, rfl, (by intro x hx; cases hx), hm0⟩
    · rename_i hm0
      cases hpr : pickReady req done rest0 with
      | none =>
        rw [hpr] at h
        cases h
      | some p =>
        obtain ⟨m2, rest2⟩ := p
        rw [hpr] at h
        simp only [Option.some.injEq, Prod.mk.injEq] at h
        obtain ⟨rfl, rfl⟩ := h
        obtain ⟨l₁, l₂, he, hr, hnr, hready⟩ := ih hpr
        refine ⟨m0 :: l₁, l₂, by simp [he], by simp [hr], ?_, hready⟩
        intro x hx
        rcases List.mem_cons.mp hx with rfl | hx2
        · exact hm0
        · exact hnr x hx2

theorem kahnAux_subset (req : String → List String) :
    ∀ (fuel : Nat) (done remaining : List String) (x : String),
      x ∈ kahnAux req fuel done remaining → x ∈ done ∨ x ∈ remaining := by
  intro fuel
  induction fuel with
  | zero =>
    intro done rem x hx
    exact List.mem_append.mp hx
  | succ fuel ih =>
    intro done rem x hx
    unfold kahnAux at hx
    cases hpick : pickReady req done rem with
    | none =>
      rw [hpick] at hx
      exact List.mem_append.mp hx
    | some p =>
      obtain ⟨m, rest⟩ := p
      rw [hpick] at hx
      obtain ⟨l₁, l₂, heq, hrest, _, _⟩ := pickReady_some hpick
      rcases ih (done ++ [m]) rest x hx with hd | hr
      · rcases List.mem_append.mp hd with h1 | h2
        · exact Or.inl h1
        · rw [List.mem_singleton] at h2
          subst h2
          refine Or.inr ?_
          rw [heq]
          exact List.mem_append.mpr (Or.inr (List.mem_cons_self _ _))
      · rw [hrest] at hr
        refine Or.inr ?_
        rw [heq]
        rcases List.mem_append.mp hr with h1 | h2
        · exact List.mem_append.mpr (Or.inl h1)
        · exact List.mem_append.mpr (Or.inr (List.mem_cons_of_mem _ h2))

theorem kahnAux_good (req : String → List String) (O : List String)
    (hsort : O.Pairwise strLt)
    (hreqO : ∀ m ∈ O, ∀ r ∈ req m, r ∈ O)
    (hacyc : ∀ t, List.Sublist t O → t ≠ [] →
      ∃ m ∈ t, ∀ r ∈ req m, ¬ r ∈ t) :
    ∀ (fuel : Nat) (done remaining : List String),
      remaining.length ≤ fuel →
      List.Perm (done ++ remaining) O →
      List.Sublist remaining O →
      ∃ out, kahnAux req fuel done remaining = done ++ out ∧
        List.Perm out remaining ∧ GoodFrom req done out := by
  intro fuel
  induction fuel with
  | zero =>
    intro done remaining hlen _ _
    have hnil : remaining = [] :=
      List.length_eq_zero.mp (Nat.le_zero.mp hlen)
    subst hnil
    exact ⟨[], rfl, List.Perm.refl _, trivial⟩
  | succ fuel ih =>
    intro done remaining hlen hperm hsub
    cases hpick : pickReady req done remaining with
    | none =>
      rcases remaining with _ | ⟨m0, rest0⟩
      · refine ⟨[], ?_, List.Perm.refl _, trivial⟩
        unfold kahnAux
        rw [hpick]
      · exfalso
        obtain ⟨m1, hm1mem, hm1src⟩ :=
          hacyc (m0 :: rest0) hsub (by simp)
        have hready : Ready req done m1 := by
          intro r hr
          have hrO : r ∈ O := hreqO m1 (hsub.subset hm1mem) r hr
          have hrdr : r ∈ done ++ m0 :: rest0 := hperm.mem_iff.mpr hrO
          rcases List.mem_append.mp hrdr with hd | hrm
          · exact hd
          · exact absurd hrm (hm1src r hr)
        exact absurd hready (pickReady_none hpick m1 hm1mem)
    | some p =>
      obtain ⟨m, rest⟩ := p
      obtain ⟨l₁, l₂, heq, hrest, hnotready, hready⟩ := pickReady_some hpick
      have hlen2 : rest.length ≤ fuel := by
        rw [hrest]
        rw [heq] at hlen
        simp only [List.length_append, List.length_cons] at hlen ⊢
        omega
      have hperm2 : List.Perm ((done ++ [m]) ++ rest) O := by
        refine List.Perm.trans ?_ hperm
        rw [hrest, heq]
        have h2 : (done ++ [m]) ++ (l₁ ++ l₂) = done ++ (m :: (l₁ ++ l₂)) := by
          simp
        rw [h2]
        exact List.Perm.append_left done List.perm_middle.symm
      have hsub2 : List.Sublist rest O := by
        refine List.Sublist.trans ?_ hsub
        rw [hrest, heq]
        exact (List.sublist_cons_self m l₂).append_left l₁
      obtain ⟨out, hk, hpermout, hgood⟩ :=
        ih (done ++ [m]) rest hlen2 hperm2 hsub2
      refine ⟨m :: out, ?_, ?_, ?_⟩
      · have hstep : kahnAux req (fuel + 1) done remaining
            = kahnAux req fuel (done ++ [m]) rest := by
          conv_lhs => unfold kahnAux
          rw [hpick]
        rw [hstep, hk]
        simp
      · refine List.Perm.trans (List.Perm.cons m hpermout) ?_
        rw [hrest, heq]
        exact List.perm_middle.symm
      · refine ⟨hready, ?_, hgood⟩
        intro m2 hm2 hm2ready
        have hm2rest : m2 ∈ rest := hpermout.subset hm2
        rw [hrest] at hm2rest
        rcases List.mem_append.mp hm2rest with h1 | h2
        · exact absurd hm2ready (hnotready m2 h1)
        · have hsorted : remaining.Pairwise strLt := hsort.sublist hsub
          rw [heq] at hsorted
          exact (List.pairwise_cons.mp
            (List.pairwise_append.mp hsorted).2.1).1 m2 h2

/-- Requirements of `m` that are not satisfied inside the selection. -/
def missingOf (cat : Catalogue) (ord : List String) (m : String) : List String :=
  (reqOf cat m).filter (fun r => decide (¬ r ∈ ord))

/-- First module (in canonical order) with unsatisfied requirements, paired
with its missing names. -/
def findMissing (cat : Catalogue) (ord : List String) :
    Option (String × List String) :=
  ord.findSome? fun m =>
    if missingOf cat ord m = [] then none
    else some (m, missingOf cat ord m)

/-- First conflicting pair of selected modules, the conflict check being
performed in both directions. -/
def findConflict (cat : Catalogue) (ord : List String) :
    Option (String × String) :=
  ord.findSome? fun a =>
    ord.findSome? fun b =>
      if a ≠ b ∧ (b ∈ conflictsOf cat a ∨ a ∈ conflictsOf cat b) then
        some (a, b)
      else none

/-- Application order computed by the greedy lexicographic Kahn sort. -/
def applicationOrder (cat : Catalogue) (sel : List String) : List String :=
  kahnAux (reqOf cat) (orderedSelection sel).length [] (orderedSelection sel)

/-- Modelled from the spec: DependencyResolver (not present in the source
snapshot) validates the selection against requires and conflicts
declarations, failing with MissingDependencyError or ConflictError, and on
success returns the application order: a topological sort over requires with
ties broken by ascending lexicographic module name.  It is a pure function
of the canonical selection set, hence independent of the input order. -/
def resolve (cat : Catalogue) (sel : List String) :
    Except EngineError (List String) :=
  match findMissing cat (orderedSelection sel) with
  | some (m, miss) => .error (.missingDependency m miss)
  | none =>
    match findConflict cat (orderedSelection sel) with
    | some (a, b) => .error (.conflictPair a b)
    | none => .ok (applicationOrder cat sel)

theorem findSome?_some_ex {α β : Type} {f : α → Option β} :
    ∀ {l : List α} {b : β}, l.findSome? f = some b → ∃ a ∈ l, f a = some b := by
  intro l
  induction l with
  | nil =>
    intro b h
    simp [List.findSome?] at h
  | cons a rest ih =>
    intro b h
    cases hfa : f a with
    | some b0 =>
      have hcons : List.findSome? f (a :: rest) = some b0 := by
        simp [List.findSome?, hfa]
      rw [hcons] at h
      injection h with hb
      subst hb
      exact ⟨a, List.mem_cons_self _ _, hfa⟩
    | none =>
      have hcons : List.findSome? f (a :: rest) = List.findSome? f rest := by
        simp [List.findSome?, hfa]
      rw [hcons] at h
      obtain ⟨a2, ha2, hf2⟩ := ih h
      exact ⟨a2, List.mem_cons_of_mem _ ha2, hf2⟩

theorem findMissing_eq_none {cat : Catalogue} {ord : List String}
    (h : ∀ m ∈ ord, ∀ r ∈ reqOf cat m, r ∈ ord) :
    findMissing cat ord = none := by
  unfold findMissing
  rw [List.findSome?_eq_none_iff]
  intro m hm
  have hmiss : missingOf cat ord m = [] := by
    unfold missingOf
    rw [List.filter_eq_nil_iff]
    intro r hr
    simp only [decide_eq_true_eq, Decidable.not_not]
    exact h m hm r hr
  rw [if_pos hmiss]

theorem findConflict_eq_none {cat : Catalogue} {ord : List String}
    (h : ∀ a ∈ ord, ∀ b ∈ ord, a ≠ b →
      ¬ (b ∈ conflictsOf cat a ∨ a ∈ conflictsOf cat b)) :
    findConflict cat ord = none := by
  unfold findConflict
  rw [List.findSome?_eq_none_iff]
  intro a ha
  rw [List.findSome?_eq_none_iff]
  intro b hb
  rw [if_neg]
  rintro ⟨hne, hcf⟩
  exact h a ha b hb hne hcf

theorem resolve_ok_subset (cat : Catalogue) (sel l : List String)
    (h : resolve cat sel = .ok l) : ∀ x ∈ l, x ∈ sel := by
  unfold resolve at h
  cases hfm : findMissing cat (orderedSelection sel) with
  | some p =>
    rw [hfm] at h
    obtain ⟨m, miss⟩ := p
    simp at h
  | none =>
    rw [hfm] at h
    cases hfc : findConflict cat (orderedSelection sel) with
    | some p =>
      rw [hfc] at h
      obtain ⟨a, b⟩ := p
      simp at h
    | none =>
      rw [hfc] at h
      simp only [Except.ok.injEq] at h
      subst h
      intro x hx
      unfold applicationOrder at hx
      rcases kahnAux_subset (reqOf cat) _ _ _ x hx with h1 | h1
      · cases h1
      · exact mem_orderedSelection.mp h1

/-- Acyclicity of the requires relation restricted to the selection: every
non-empty subset of the canonical selection contains a module none of whose
requirements lie inside that subset. -/
def AcyclicSel (cat : Catalogue) (sel : List String) : Prop :=
  ∀ t ∈ (orderedSelection sel).sublists, t ≠ [] →
    ∃ m ∈ t, ∀ r ∈ reqOf cat m, ¬ r ∈ t

instance (cat : Catalogue) (sel : List String) :
    Decidable (AcyclicSel cat sel) := by
  unfold AcyclicSel
  infer_instance

/-- C1 (amended with the acyclicity proviso): for every valid selection (all
requires satisfied within the selection, no conflicting pair) whose requires
relation is acyclic on the selection, resolve succeeds and returns the
application order given by a topological sort over requires with ties broken
by ascending lexicographic module name (each module follows all its
requirements and lexicographically precedes every later module that was also
ready at its position); the order is a permutation of the selection set, and
resolve returns the identical result for every permutation of the input
list. -/
theorem resolver_lex_topo (cat : Catalogue) (sel : List String)
    (hreq : ∀ m ∈ sel, ∀ r ∈ reqOf cat m, r ∈ sel)
    (hconf : ∀ a ∈ sel, ∀ b ∈ sel, a ≠ b →
      ¬ (b ∈ conflictsOf cat a ∨ a ∈ conflictsOf cat b))
    (hacyc : AcyclicSel cat sel) :
    (∃ ord, resolve cat sel = .ok ord ∧
      List.Perm ord (orderedSelection sel) ∧
      (∀ x, x ∈ ord ↔ x ∈ sel) ∧
      IsLexTopo (reqOf cat) ord) ∧
    (∀ sel2, List.Perm sel2 sel → resolve cat sel2 = resolve cat sel) := by
  have hreq2 : ∀ m ∈ orderedSelection sel, ∀ r ∈ reqOf cat m,
      r ∈ orderedSelection sel := by
    intro m hm r hr
    exact mem_orderedSelection.mpr (hreq m (mem_orderedSelection.mp hm) r hr)
  have hconf2 : ∀ a ∈ orderedSelection sel, ∀ b ∈ orderedSelection sel,
      a ≠ b → ¬ (b ∈ conflictsOf cat a ∨ a ∈ conflictsOf cat b) := by
    intro a ha b hb
    exact hconf a (mem_orderedSelection.mp ha) b (mem_orderedSelection.mp hb)
  have hfm := findMissing_eq_none hreq2
  have hfc := findConflict_eq_none hconf2
  have hres : resolve cat sel = .ok (applicationOrder cat sel) := by
    unfold resolve
    rw [hfm, hfc]
  obtain ⟨out, hk, hperm, hgood⟩ := kahnAux_good (reqOf cat)
    (orderedSelection sel) (orderedSelection_sorted sel) hreq2
    (fun t hsub hne => hacyc t (List.mem_sublists.mpr hsub) hne)
    (orderedSelection sel).length [] (orderedSelection sel)
    (Nat.le_refl _) (by simp) (List.Sublist.refl _)
  constructor
  · refine ⟨applicationOrder cat sel, hres, ?_, ?_, ?_⟩
    · unfold applicationOrder
      rw [hk]
      simpa using hperm
    · intro x
      unfold applicationOrder
      rw [hk]
      simp only [List.nil_append]
      rw [hperm.mem_iff]
      exact mem_orderedSelection
    · unfold applicationOrder
      rw [hk]
      simp only [List.nil_append]
      exact isLexTopo_of_goodFrom hgood
  · intro sel2 hp
    unfold resolve applicationOrder
    rw [orderedSelection_perm_congr hp]

/-- Witness catalogue for C1: file-storage requires auth, no conflicts. -/
def wCatC1 : Catalogue :=
  [⟨"auth", [], [], [], [], [], []⟩,
   ⟨"file-storage", [], [], [], [], [], ["auth"]⟩]

/-- Witness for C1 at a concrete valid acyclic selection, supplied in
non-lexicographic input order. -/
theorem resolver_lex_topo_witness :
    (∃ ord, resolve wCatC1 ["file-storage", "auth"] = .ok ord ∧
      List.Perm ord (orderedSelection ["file-storage", "auth"]) ∧
      (∀ x, x ∈ ord ↔ x ∈ ["file-storage", "auth"]) ∧
      IsLexTopo (reqOf wCatC1) ord) ∧
    (∀ sel2, List.Perm sel2 ["file-storage", "auth"] →
      resolve wCatC1 sel2 = resolve wCatC1 ["file-storage", "auth"]) :=
  resolver_lex_topo wCatC1 ["file-storage", "auth"]
    (by decide) (by decide) (by decide)

/-- Counterexample catalogue for C1 as literally stated: a requires cycle. -/
def cycCat : Catalogue :=
  [⟨"alpha", [], [], [], [], [], ["beta"]⟩,
   ⟨"beta", [], [], [], [], [], ["alpha"]⟩]

/-- Counterexample to C1 as stated: the selection [alpha, beta] with a
requires cycle is valid in the claim's sense (all requires satisfied inside
the selection, no conflicts), yet the returned order is not a topological
sort over requires: beta is required by alpha but does not precede it. -/
theorem resolver_lex_topo_cex :
    (∀ m ∈ ["alpha", "beta"], ∀ r ∈ reqOf cycCat m, r ∈ ["alpha", "beta"]) ∧
    (∀ a ∈ ["alpha", "beta"], ∀ b ∈ ["alpha", "beta"], a ≠ b →
      ¬ (b ∈ conflictsOf cycCat a ∨ a ∈ conflictsOf cycCat b)) ∧
    resolve cycCat ["alpha", "beta"] = .ok ["alpha", "beta"] ∧
    "beta" ∈ reqOf cycCat "alpha" ∧
    ¬ IsLexTopo (reqOf cycCat) ["alpha", "beta"] := by
  refine ⟨by decide, by decide, by rfl, by decide, ?_⟩
  intro h
  have h2 := (h [] "alpha" ["beta"] rfl).1 "beta" (by decide)
  exact absurd h2 (List.not_mem_nil "beta")

/-- C2: whenever a selected module M has an unsatisfied requirement R,
resolution fails with MissingDependencyError carrying an offending module and
exactly its missing requirement names, no order is returned, and the engine
never adds a module to the selection on its own: every successful order
contains only selected names. -/
theorem resolver_missing (cat : Catalogue) (sel : List String) (M R : String)
    (hM : M ∈ sel) (hR : R ∈ reqOf cat M) (hRn : ¬ R ∈ sel) :
    (∃ M2 miss, resolve cat sel = .error (.missingDependency M2 miss) ∧
      M2 ∈ sel ∧ miss ≠ [] ∧
      (∀ r ∈ miss, r ∈ reqOf cat M2 ∧ ¬ r ∈ sel)) ∧
    (∀ l, resolve cat sel ≠ .ok l) ∧
    (∀ (cat2 : Catalogue) (sel2 l2 : List String),
      resolve cat2 sel2 = .ok l2 → ∀ x ∈ l2, x ∈ sel2) := by
  have hkey : ∃ p, findMissing cat (orderedSelection sel) = some p := by
    cases hfm : findMissing cat (orderedSelection sel) with
    | some p => exact ⟨p, rfl⟩
    | none =>
      exfalso
      have hall := List.findSome?_eq_none_iff.mp
        (by exact hfm) M (mem_orderedSelection.mpr hM)
      have hmem : R ∈ missingOf cat (orderedSelection sel) M := by
        unfold missingOf
        rw [List.mem_filter]
        refine ⟨hR, ?_⟩
        simp only [decide_eq_true_eq]
        intro hc
        exact hRn (mem_orderedSelection.mp hc)
      have hne2 : missingOf cat (orderedSelection sel) M ≠ [] := by
        intro hnil
        rw [hnil] at hmem
        cases hmem
      rw [if_neg hne2] at hall
      cases hall
  obtain ⟨p, hfm⟩ := hkey
  have hfm2 := hfm
  unfold findMissing at hfm2
  obtain ⟨a, haord, hfa⟩ := findSome?_some_ex hfm2
  by_cases hnil : missingOf cat (orderedSelection sel) a = []
  · rw [if_pos hnil] at hfa
    cases hfa
  · rw [if_neg hnil] at hfa
    injection hfa with hp
    subst hp
    have hres : resolve cat sel
        = .error (.missingDependency a
            (missingOf cat (orderedSelection sel) a)) := by
      unfold resolve
      rw [hfm]
    refine ⟨⟨a, missingOf cat (orderedSelection sel) a, hres,
      mem_orderedSelection.mp haord, hnil, ?_⟩, ?_, ?_⟩
    · intro r hr
      unfold missingOf at hr
      rw [List.mem_filter] at hr
      refine ⟨hr.1, ?_⟩
      have := hr.2
      simp only [decide_eq_true_eq] at this
      intro hc
      exact this (mem_orderedSelection.mpr hc)
    · intro l hc
      have := hres.symm.trans hc
      cases this
    · intro cat2 sel2 l2 h2
      exact resolve_ok_subset cat2 sel2 l2 h2

/-- Witness catalogue for C2: auth requires the unselected module users. -/
def wCatC2 : Catalogue := [⟨"auth", [], [], [], [], [], ["users"]⟩]

/-- Witness for C2 at a concrete selection with an unmet requirement. -/
theorem resolver_missing_witness :
    ∃ M2 miss, resolve wCatC2 ["auth"] = .error (.missingDependency M2 miss) ∧
      M2 ∈ ["auth"] ∧ miss ≠ [] ∧
      (∀ r ∈ miss, r ∈ reqOf wCatC2 M2 ∧ ¬ r ∈ ["auth"]) :=
  (resolver_missing wCatC2 ["auth"] "auth" "users"
    (by decide) (by decide) (by decide)).1

/-- C3 (amended with the requires proviso): for every selection whose
requires are all satisfied (the missing-dependency check precedes the
conflict check) containing two modules where either one declares the other in
its conflicts, resolution fails with ConflictError naming a genuinely
conflicting selected pair, regardless of which side declared the conflict;
when the given pair is the only conflicting pair, the error names exactly
that pair. -/
theorem resolver_conflict_amended (cat : Catalogue) (sel : List String)
    (A B : String) (hA : A ∈ sel) (hB : B ∈ sel) (hAB : A ≠ B)
    (hdecl : B ∈ conflictsOf cat A ∨ A ∈ conflictsOf cat B)
    (hreq : ∀ m ∈ sel, ∀ r ∈ reqOf cat m, r ∈ sel) :
    (∃ X Y, resolve cat sel = .error (.conflictPair X Y) ∧
      X ∈ sel ∧ Y ∈ sel ∧ X ≠ Y ∧
      (Y ∈ conflictsOf cat X ∨ X ∈ conflictsOf cat Y)) ∧
    ((∀ a ∈ sel, ∀ b ∈ sel, a ≠ b →
        (b ∈ conflictsOf cat a ∨ a ∈ conflictsOf cat b) →
        (a = A ∧ b = B) ∨ (a = B ∧ b = A)) →
      resolve cat sel = .error (.conflictPair A B) ∨
      resolve cat sel = .error (.conflictPair B A)) := by
  have hreq2 : ∀ m ∈ orderedSelection sel, ∀ r ∈ reqOf cat m,
      r ∈ orderedSelection sel := by
    intro m hm r hr
    exact mem_orderedSelection.mpr (hreq m (mem_orderedSelection.mp hm) r hr)
  have hfm := findMissing_eq_none hreq2
  have hkey : ∃ p, findConflict cat (orderedSelection sel) = some p := by
    cases hfc : findConflict cat (orderedSelection sel) with
    | some p => exact ⟨p, rfl⟩
    | none =>
      exfalso
      have hall := List.findSome?_eq_none_iff.mp
        (by exact hfc) A (mem_orderedSelection.mpr hA)
      have hall2 := List.findSome?_eq_none_iff.mp hall B
        (mem_orderedSelection.mpr hB)
      rw [if_pos ⟨hAB, hdecl⟩] at hall2
      cases hall2
  obtain ⟨p, hfc⟩ := hkey
  have hfc2 := hfc
  unfold findConflict at hfc2
  obtain ⟨a, haord, hfa⟩ := findSome?_some_ex hfc2
  obtain ⟨b, hbord, hfb⟩ := findSome?_some_ex hfa
  by_cases hcond : a ≠ b ∧ (b ∈ conflictsOf cat a ∨ a ∈ conflictsOf cat b)
  · rw [if_pos hcond] at hfb
    injection hfb with hp
    subst hp
    have hres : resolve cat sel = .error (.conflictPair a b) := by
      unfold resolve
      rw [hfm, hfc]
    refine ⟨⟨a, b, hres, mem_orderedSelection.mp haord,
      mem_orderedSelection.mp hbord, hcond.1, hcond.2⟩, ?_⟩
    intro huniq
    rcases huniq a (mem_orderedSelection.mp haord) b
      (mem_orderedSelection.mp hbord) hcond.1 hcond.2 with ⟨rfl, rfl⟩ | ⟨rfl, rfl⟩
    · exact Or.inl hres
    · exact Or.inr hres
  · rw [if_neg hcond] at hfb
    cases hfb

/-- Witness catalogue for C3: auth declares a one-sided conflict with
no-auth. -/
def confCat : Catalogue :=
  [⟨"auth", [], [], [], [], ["no-auth"], []⟩,
   ⟨"no-auth", [], [], [], [], [], []⟩]

/-- Witness for C3 at the specification's end-to-end scenario B: mutually
exclusive modules auth and no-auth, declared on one side only. -/
theorem resolver_conflict_amended_witness :
    (∃ X Y, resolve confCat ["auth", "no-auth"]
        = .error (.conflictPair X Y) ∧
      X ∈ ["auth", "no-auth"] ∧ Y ∈ ["auth", "no-auth"] ∧ X ≠ Y ∧
      (Y ∈ conflictsOf confCat X ∨ X ∈ conflictsOf confCat Y)) ∧
    ((∀ a ∈ ["auth", "no-auth"], ∀ b ∈ ["auth", "no-auth"], a ≠ b →
        (b ∈ conflictsOf confCat a ∨ a ∈ conflictsOf confCat b) →
        (a = "auth" ∧ b = "no-auth") ∨ (a = "no-auth" ∧ b = "auth")) →
      resolve confCat ["auth", "no-auth"]
        = .error (.conflictPair "auth" "no-auth") ∨
      resolve confCat ["auth", "no-auth"]
        = .error (.conflictPair "no-auth" "auth")) :=
  resolver_conflict_amended confCat ["auth", "no-auth"] "auth" "no-auth"
    (by decide) (by decide) (by decide) (Or.inl (by decide)) (by decide)

/-- Counterexample catalogue for C3 as literally stated: alpha conflicts
with beta but also has an unmet requirement. -/
def mixCat : Catalogue :=
  [⟨"alpha", [], [], [], [], ["beta"], ["zeta"]⟩,
   ⟨"beta", [], [], [], [], [], []⟩]

/-- Counterexample to C3 as stated: the selection [alpha, beta] contains a
declared conflicting pair, yet resolution fails with MissingDependencyError
(the requires check precedes), not with ConflictError. -/
theorem resolver_conflict_cex :
    "beta" ∈ conflictsOf mixCat "alpha" ∧
    "alpha" ∈ ["alpha", "beta"] ∧ "beta" ∈ ["alpha", "beta"] ∧
    resolve mixCat ["alpha", "beta"]
      = .error (.missingDependency "alpha" ["zeta"]) ∧
    ∀ a b, resolve mixCat ["alpha", "beta"] ≠ .error (.conflictPair a b) := by
  refine ⟨by decide, by decide, by decide, by rfl, ?_⟩
  intro a b hc
  have h1 : resolve mixCat ["alpha", "beta"]
      = .error (.missingDependency "alpha" ["zeta"]) := by rfl
  have h2 := h1.symm.trans hc
  injection h2 with h3
  cases h3

/-! Claim C8: merged environment requirements and the assembled Finalized
output.  The ProjectAssembler implementation is not part of the source
snapshot; it is modelled from the specification. -/

/-- DevDependencies declared by a module (empty for an unknown name). -/
def devDepsOf (cat : Catalogue) (n : String) : List (String × String) :=
  ((findMod cat n).map ModuleManifest.devDeps).getD []

/-- Modelled from the spec: the merged env is the deduplicated set union of
the base preset's env and every selected module's env. -/
def mergeEnv (base : List String) (envs : List (List String)) : List String :=
  (base ++ envs.flatten).dedup

/-- Directives of the selected modules in application order, each tagged
with its owning module. -/
def moduleDirectives (cat : Catalogue) (ord : List String) :
    List TaggedDirective :=
  (ord.map (fun m => (injectOf cat m).map (fun a => (m, a)))).flatten

/-- Applies the template renderer to every file of the tree. -/
def renderAll (tree : List (String × String))
    (vars : List (String × String)) : List (String × String) :=
  tree.map (fun pc => (pc.1, renderTemplate pc.2 vars))

/-- Finalized engine output (section 6 of the specification). -/
structure Finalized where
  tree : List (String × String)
  mergedDeps : List (String × String)
  mergedDevDeps : List (String × String)
  requiredEnv : List String
deriving DecidableEq

/-- Modelled from the spec: ProjectAssembler drives resolution, manifest
merging, code injection and template rendering; any stage error is returned
unchanged and only a fully finalized result carries a tree. -/
def assemble (cat : Catalogue) (sel : List String)
    (baseTree : List (String × String))
    (baseDeps baseDevDeps : List (String × String))
    (baseEnv : List String) (vars : List (String × String)) :
    Except EngineError Finalized :=
  match resolve cat sel with
  | .error e => .error e
  | .ok ord =>
    match mergeDeps baseDeps (ord.map (depsOf cat)) with
    | .error e => .error e
    | .ok deps =>
      match mergeDeps baseDevDeps (ord.map (devDepsOf cat)) with
      | .error e => .error e
      | .ok devDeps =>
        match runInjector baseTree (moduleDirectives cat ord) with
        | .error e => .error e
        | .ok tree =>
          .ok ⟨renderAll tree vars, deps, devDeps,
            mergeEnv baseEnv (ord.map (envOf cat))⟩

theorem resolve_perm_congr {cat : Catalogue} {sel1 sel2 : List String}
    (h : List.Perm sel1 sel2) : resolve cat sel1 = resolve cat sel2 := by
  unfold resolve applicationOrder
  rw [orderedSelection_perm_congr h]

theorem resolve_ok_eq (cat : Catalogue) (sel l : List String)
    (h : resolve cat sel = .ok l) : l = applicationOrder cat sel := by
  unfold resolve at h
  cases hfm : findMissing cat (orderedSelection sel) with
  | some p =>
    rw [hfm] at h
    obtain ⟨m, miss⟩ := p
    simp at h
  | none =>
    rw [hfm] at h
    cases hfc : findConflict cat (orderedSelection sel) with
    | some p =>
      rw [hfc] at h
      obtain ⟨a, b⟩ := p
      simp at h
    | none =>
      rw [hfc] at h
      simp only [Except.ok.injEq] at h
      exact h.symm

theorem kahnAux_superset (req : String → List String) :
    ∀ (fuel : Nat) (done remaining : List String) (x : String),
      x ∈ done ∨ x ∈ remaining → x ∈ kahnAux req fuel done remaining := by
  intro fuel
  induction fuel with
  | zero =>
    intro done rem x hx
    exact List.mem_append.mpr hx
  | succ fuel ih =>
    intro done rem x hx
    cases hpick : pickReady req done rem with
    | none =>
      show x ∈ kahnAux req (fuel + 1) done rem
      unfold kahnAux
      rw [hpick]
      exact List.mem_append.mpr hx
    | some p =>
      obtain ⟨m, rest⟩ := p
      obtain ⟨l₁, l₂, heq, hrest, _, _⟩ := pickReady_some hpick
      have hstep : kahnAux req (fuel + 1) done rem
          = kahnAux req fuel (done ++ [m]) rest := by
        conv_lhs => unfold kahnAux
        rw [hpick]
      rw [hstep]
      apply ih
      rcases hx with hd | hr
      · exact Or.inl (List.mem_append.mpr (Or.inl hd))
      · rw [heq] at hr
        rcases List.mem_append.mp hr with h1 | h2
        · refine Or.inr ?_
          rw [hrest]
          exact List.mem_append.mpr (Or.inl h1)
        · rcases List.mem_cons.mp h2 with rfl | h3
          · exact Or.inl (List.mem_append.mpr (Or.inr (List.mem_cons_self _ _)))
          · refine Or.inr ?_
            rw [hrest]
            exact List.mem_append.mpr (Or.inr h3)

theorem resolve_ok_mem (cat : Catalogue) (sel l : List String)
    (h : resolve cat sel = .ok l) : ∀ x, x ∈ l ↔ x ∈ sel := by
  have hl := resolve_ok_eq cat sel l h
  subst hl
  intro x
  constructor
  · intro hx
    rcases kahnAux_subset (reqOf cat) _ _ _ x hx with h1 | h1
    · cases h1
    · exact mem_orderedSelection.mp h1
  · intro hx
    exact kahnAux_superset (reqOf cat) _ _ _ x
      (Or.inr (mem_orderedSelection.mpr hx))

/-- C8: every Finalized assembly result carries a requiredEnv list that is
duplicate-free and whose members are exactly the union of the base preset's
env declarations and the env declarations of the selected modules; the whole
Finalized result, requiredEnv included, is unchanged under permutations of
the input selection, so the merged env set is independent of application
order. -/
theorem finalized_requiredEnv (cat : Catalogue) (sel : List String)
    (baseTree : List (String × String))
    (baseDeps baseDevDeps : List (String × String))
    (baseEnv : List String) (vars : List (String × String)) (fin : Finalized)
    (h : assemble cat sel baseTree baseDeps baseDevDeps baseEnv vars
      = .ok fin) :
    fin.requiredEnv.Nodup ∧
    (∀ x, x ∈ fin.requiredEnv ↔ x ∈ baseEnv ∨ ∃ m ∈ sel, x ∈ envOf cat m) ∧
    (∀ sel2, List.Perm sel2 sel →
      assemble cat sel2 baseTree baseDeps baseDevDeps baseEnv vars
        = .ok fin) := by
  unfold assemble at h
  cases hres : resolve cat sel with
  | error e =>
    rw [hres] at h
    simp at h
  | ok ord =>
    rw [hres] at h
    simp only [] at h
    cases hd1 : mergeDeps baseDeps (ord.map (depsOf cat)) with
    | error e =>
      rw [hd1] at h
      simp at h
    | ok deps =>
      rw [hd1] at h
      simp only [] at h
      cases hd2 : mergeDeps baseDevDeps (ord.map (devDepsOf cat)) with
      | error e =>
        rw [hd2] at h
        simp at h
      | ok devDeps =>
        rw [hd2] at h
        simp only [] at h
        cases hinj : runInjector baseTree (moduleDirectives cat ord) with
        | error e =>
          rw [hinj] at h
          simp at h
        | ok tree =>
          rw [hinj] at h
          simp only [Except.ok.injEq] at h
          subst h
          have hmem := resolve_ok_mem cat sel ord hres
          refine ⟨?_, ?_, ?_⟩
          · show (mergeEnv baseEnv (ord.map (envOf cat))).Nodup
            unfold mergeEnv
            exact List.nodup_dedup _
          · intro x
            show x ∈ mergeEnv baseEnv (ord.map (envOf cat)) ↔ _
            unfold mergeEnv
            rw [List.mem_dedup, List.mem_append, List.mem_flatten]
            constructor
            · rintro (hb | ⟨e, he, hxe⟩)
              · exact Or.inl hb
              · rw [List.mem_map] at he
                obtain ⟨m, hm, rfl⟩ := he
                exact Or.inr ⟨m, (hmem m).mp hm, hxe⟩
            · rintro (hb | ⟨m, hm, hxe⟩)
              · exact Or.inl hb
              · exact Or.inr ⟨envOf cat m,
                  List.mem_map.mpr ⟨m, (hmem m).mpr hm, rfl⟩, hxe⟩
          · intro sel2 hp
            have hre : resolve cat sel2 = resolve cat sel :=
              resolve_perm_congr hp
            unfold assemble
            simp only [hre, hres, hd1, hd2, hinj]

/-- Witness catalogue for C8: two modules with overlapping env
declarations. -/
def envCat : Catalogue :=
  [⟨"auth", [], [], ["JWT_SECRET", "DB_URL"], [], [], []⟩,
   ⟨"file-storage", [], [], ["STORAGE_BUCKET", "DB_URL"], [], [], []⟩]

/-- Finalized result of the C8 witness run. -/
def finDemo : Finalized :=
  ⟨[("README.md", "demo")], [], [],
    ["PORT", "JWT_SECRET", "STORAGE_BUCKET", "DB_URL"]⟩

/-- Witness for C8 at a concrete successful assembly. -/
theorem finalized_requiredEnv_witness :
    finDemo.requiredEnv.Nodup ∧
    (∀ x, x ∈ finDemo.requiredEnv ↔ x ∈ ["DB_URL", "PORT"] ∨
      ∃ m ∈ ["file-storage", "auth"], x ∈ envOf envCat m) ∧
    (∀ sel2, List.Perm sel2 ["file-storage", "auth"] →
      assemble envCat sel2 [("README.md", "demo")] [] [] ["DB_URL", "PORT"] []
        = .ok finDemo) :=
  finalized_requiredEnv envCat ["file-storage", "auth"]
    [("README.md", "demo")] [] [] ["DB_URL", "PORT"] [] finDemo (by rfl)

end Startly
